import Mathlib

/-!
Verification development for the Music-Downloader-Bot repository.

The repository's core logic (`src/main.py`) is embedded shallowly:

* Python string primitives (`sub in s`, `s.split(sep)`, `s.split()`,
  `s.lower()`) are modelled as executable functions on `String` /
  `List Char`.
* `find_best_match` (main.py:471-516) is embedded over an explicit
  search-result type; a raised `IndexError` is modelled as
  `Except.error ()`, a returned Python `None` as `Option.none`.
* `is_playlist` (main.py:109-121) and `clean_youtube_url`
  (main.py:322-336) are embedded directly; the `try/except` wrappers
  that return a default on an exception are modelled by total match
  fallbacks that mirror the caught-exception behaviour.
* External collaborators (yt-dlp metadata extraction, HTTP fetching,
  the Python `re` engine, URL decoding) are parameters of an `Env`
  structure; `none` models a raised/failed call.
-/

/-! ## Python string primitives -/

/-- Model of Python's `sub in s` membership test on `List Char`:
`true` iff `sub` occurs as a contiguous substring. -/
def listContains (sub : List Char) : List Char → Bool
  | [] => sub.isEmpty
  | c :: t => sub.isPrefixOf (c :: t) || listContains sub t

/-- Model of Python's `sub in s` on `String`. -/
def pyIn (sub s : String) : Bool := listContains sub.data s.data

/-- Model of Python's `str.lower()` (ASCII case folding, which is all
the source's vocabulary uses). -/
def lowerStr (s : String) : String := String.mk (s.data.map Char.toLower)

/-- Helper for Python's whitespace `str.split()`: scans the input,
cutting at every whitespace character; `cur` is the reversed current
token. -/
def wordsAux : List Char → List Char → List (List Char)
  | cur, [] => [cur.reverse]
  | cur, c :: rest =>
    if c.isWhitespace then cur.reverse :: wordsAux [] rest
    else wordsAux (c :: cur) rest

/-- Model of Python's argumentless `str.split()`: whitespace-delimited
words, empty tokens discarded. -/
def pyWords (s : String) : List String :=
  ((wordsAux [] s.data).filter (fun w => w ≠ [])).map (fun w => String.mk w)

/-- Fuel-indexed model of Python's `str.split(sep)` on `List Char`:
cuts at each leftmost occurrence of `sep`.  Structural recursion on
the fuel keeps the function kernel-reducible; `lsplit` instantiates
the fuel with the list length, which always suffices. -/
def lsplitF (sep : List Char) : Nat → List Char → List (List Char)
  | _, [] => [[]]
  | 0, l => [l]
  | fuel + 1, c :: rest =>
    if sep.isPrefixOf (c :: rest) && !sep.isEmpty then
      [] :: lsplitF sep fuel ((c :: rest).drop sep.length)
    else
      (c :: (lsplitF sep fuel rest).headD []) :: (lsplitF sep fuel rest).tail

/-- Model of Python's `str.split(sep)` on `List Char` (`sep` nonempty
in every use below, matching Python's precondition). -/
def lsplit (sep l : List Char) : List (List Char) := lsplitF sep l.length l

/-- Model of Python's `s.split(sep)` on `String`. -/
def pySplit (s sep : String) : List String :=
  (lsplit sep.data s.data).map (fun w => String.mk w)

/-! ## Data model: search-result candidates (spec section 3) -/

/-- One yt-dlp search entry as consumed by `find_best_match`
(main.py:486-487): `entry.get('title', '')` and
`entry.get('uploader', '')`. -/
structure Entry where
  title : String
  uploader : String
deriving DecidableEq

/-! ## The result ranker (main.py:471-516) -/

/-- The per-candidate score of `find_best_match` (main.py:486-510),
translated line by line; Python float arithmetic is modelled with
exact rationals. -/
def matchScore (query : String) (e : Entry) : ℚ :=
  let query_lower := lowerStr query
  let query_words := (pyWords query_lower).dedup
  let title := lowerStr e.title
  let uploader := lowerStr e.uploader
  let title_words := pyWords title
  let uploader_words := pyWords uploader
  let overlap :=
    (query_words.filter (fun w => title_words.contains w || uploader_words.contains w)).length
  let score0 : ℚ :=
    if query_words.isEmpty then 0 else (overlap : ℚ) / (query_words.length : ℚ)
  let score1 :=
    if query_words.any (fun w => decide (3 < w.length) && pyIn w title) then score0 + 3/10
    else score0
  let score2 :=
    if (["official", "audio", "music"] : List String).any (fun t => pyIn t title) then
      score1 + 1/10
    else score1
  let score3 :=
    if !pyIn "live" query_lower && pyIn "live" title then score2 - 2/10 else score2
  if !pyIn "remix" query_lower && pyIn "remix" title then score3 - 1/10 else score3

/-- The loop body of `find_best_match` (main.py:482-514): a falsy
entry is skipped, otherwise the best pair is replaced exactly when the
new score is strictly greater. -/
def bestStep (query : String) (acc : Option Entry × ℚ) (entry : Option Entry) :
    Option Entry × ℚ :=
  match entry with
  | none => acc
  | some e =>
    let score := matchScore query e
    if acc.2 < score then (some e, score) else acc

/-- `find_best_match(query, search_results)` (main.py:471-516).
`search_results = none` models a falsy argument or a dict without an
`'entries'` key (the guard at main.py:473 returns `None`, modelled
`Except.ok none`); `some entries` models a dict with that key, where a
`none` element is a falsy entry.  The final fallback indexes
`search_results['entries'][0]`, which raises `IndexError` on an empty
list: that uncaught exception is modelled as `Except.error ()`. -/
def find_best_match (query : String) (search_results : Option (List (Option Entry))) :
    Except Unit (Option Entry) :=
  match search_results with
  | none => Except.ok none
  | some entries =>
    let r := (entries.take 5).foldl (bestStep query) (none, 0)
    if (3 : ℚ)/10 < r.2 then Except.ok r.1
    else
      match entries with
      | [] => Except.error ()
      | e :: _ => Except.ok e

/-! ## Spec-side restatements (for the refinement claims C1 and C2) -/

/-- Score formula exactly as the specification words it (spec section
4.2 / claim C1): fraction of query words present in the union of the
candidate's title and uploader word sets, +0.3 for a long query word
occurring in the title, +0.1 for the marker vocabulary, −0.2 for an
unrequested "live", −0.1 for an unrequested "remix".  (In `ℚ`,
division by a zero denominator yields 0.) -/
def specScore (query : String) (c : Entry) : ℚ :=
  let qws := (pyWords (lowerStr query)).dedup
  let titleL := lowerStr c.title
  let unionWords := pyWords titleL ∪ pyWords (lowerStr c.uploader)
  ((qws.filter (fun w => w ∈ unionWords)).length : ℚ) / (qws.length : ℚ)
    + (if ∃ w ∈ qws, 3 < w.length ∧ pyIn w titleL = true then 3/10 else 0)
    + (if pyIn "official" titleL = true ∨ pyIn "audio" titleL = true ∨
          pyIn "music" titleL = true then 1/10 else 0)
    - (if pyIn "live" titleL = true ∧ ¬ pyIn "live" (lowerStr query) = true then 2/10 else 0)
    - (if pyIn "remix" titleL = true ∧ ¬ pyIn "remix" (lowerStr query) = true then 1/10 else 0)

/-- Selection rule exactly as the specification words it (spec section
4.2 / claim C2): among the first five candidates take the one with the
strictly highest score, first-wins on ties; if the best score does not
exceed 0.3, fall back to the first candidate in the original order. -/
def rankSpec (query : String) (candidates : List Entry) : Option Entry :=
  match candidates with
  | [] => none
  | c0 :: _ =>
    let top5 := candidates.take 5
    let best := (top5.map (matchScore query)).foldl max (matchScore query c0)
    if (3 : ℚ)/10 < best then top5.find? (fun c => decide (matchScore query c = best))
    else some c0

/-! ## Collection classification (main.py:109-121) -/

/-- `is_playlist(url)` (main.py:109-121; the identical function also
appears at direct_bot.py:72-82).  The body performs only total string
membership tests, so the `try/except` at main.py:119-121 is dead. -/
def is_playlist (url : String) : Bool :=
  if pyIn "youtube.com" url then pyIn "playlist" url || pyIn "list=" url
  else if pyIn "spotify.com" url then pyIn "/playlist/" url || pyIn "/album/" url
  else if pyIn "music.apple.com" url then
    pyIn "/playlist/" url || (pyIn "/album/" url && !pyIn "?i=" url)
  else false

/-! ## URL normalisation (main.py:322-336) -/

/-- `clean_youtube_url(url)` (main.py:322-336).  The wildcard match
arms model the `except: return url` handler (main.py:335-336), which
would catch the `IndexError` of `url.split(sep)[1]` were the guarded
occurrence absent; under the guards they are unreachable. -/
def clean_youtube_url (url : String) : String :=
  if pyIn "youtu.be/" url then
    match lsplit "youtu.be/".data url.data with
    | _ :: seg :: _ =>
      let seg2 := (lsplit "?".data seg).headD []
      let video_id := (lsplit "&".data seg2).headD []
      "https://www.youtube.com/watch?v=" ++ String.mk video_id
    | _ => url
  else if pyIn "youtube.com/watch" url then
    if pyIn "v=" url then
      match lsplit "v=".data url.data with
      | _ :: seg :: _ =>
        let video_id := (lsplit "&".data seg).headD []
        "https://www.youtube.com/watch?v=" ++ String.mk video_id
      | _ => url
    else url
  else url

/-- The video-id component that the `youtu.be` branch of
`clean_youtube_url` extracts (main.py:327): the text between the first
`youtu.be/` and the next `?` or `&`.  Used only to state the amended
idempotence claim. -/
def youtubeShortId (url : String) : List Char :=
  match lsplit ("youtu.be/").data url.data with
  | _ :: seg :: _ => (lsplit ("&").data ((lsplit ("?").data seg).headD [])).headD []
  | _ => []

/-! ## The title normalizer (main.py:249-320, 338-382) -/

/-- Result of yt-dlp's `extract_info` as consumed at main.py:257-258:
each field models `info.get(key, '')` (an absent key is the empty
string). -/
structure YdlInfo where
  title : String
  artist : String
  uploader : String
  channel : String

/-- External collaborators of the normalizer.  A `none` result models
a raised exception (network failure, no match): `extract_info` is
yt-dlp, `http_get` is `requests.get(...).text`, `re_search` returns
the capture groups of Python's `re.search`, `re_sub` is `re.sub`,
`unquote` is URL decoding, `search_api` is `search_youtube_api`
(main.py:48-77) and `download` runs yt-dlp on a URL or search term and
returns the first downloaded mp3 (main.py:373-378). -/
structure Env where
  extract_info : String → Option YdlInfo
  http_get : String → Option String
  re_search : String → String → Option (List String)
  re_sub : String → String → String → String
  unquote : String → String
  search_api : String → Option String
  download : String → Option String

/-- An environment in which every external call fails: the
"unreachable host" scenario of claim C7. -/
def failEnv : Env where
  extract_info := fun _ => none
  http_get := fun _ => none
  re_search := fun _ _ => none
  re_sub := fun _ _ s => s
  unquote := fun s => s
  search_api := fun _ => none
  download := fun _ => none

/-- Model of Python's `s.replace(old, new)` for single characters. -/
def replaceChar (a b : Char) (s : String) : String :=
  String.mk (s.data.map (fun c => if c = a then b else c))

/-- Model of Python's `s.replace(old, new)` (`old` nonempty). -/
def pyReplace (s old new : String) : String :=
  String.intercalate new (pySplit s old)

/-- `get_track_title_from_url(url)` (main.py:249-320), with the
external calls supplied by `env`.  Returning `none` models Python's
`return None`; every exception the source can raise there is caught by
its handlers (main.py:299-300, 314-315, 317-318), which fall through
to `return None`. -/
def get_track_title_from_url (env : Env) (url : String) : Option String :=
  let fromYdl : Option String :=
    match env.extract_info url with
    | none => none
    | some info =>
      let title := info.title
      let artist :=
        if info.artist != "" then info.artist
        else if info.uploader != "" then info.uploader
        else info.channel
      if title != "" then
        let title2 := (env.re_sub "\\[.*?\\]|\\(.*?\\)" "" title).trim
        if artist != "" && !pyIn (lowerStr artist) (lowerStr title2) then
          some (artist ++ " " ++ title2)
        else some title2
      else none
  match fromYdl with
  | some t => some t
  | none =>
    if pyIn "music.apple.com" url then
      match env.re_search "/(?:album|song)/([^/]+)" url with
      | some (g :: _) =>
        let t := (env.re_sub "\\s+\\d+$" ""
          (replaceChar '_' ' ' (replaceChar '-' ' ' (env.unquote g)))).trim
        if 3 < t.length then some t else none
      | _ => none
    else if pyIn "spotify.com" url then
      match env.http_get url with
      | none => none
      | some html =>
        match env.re_search
            "<title>([^<]+?) - song and lyrics by ([^<]+?) \\| Spotify</title>" html with
        | some (g1 :: g2 :: _) => some (g2 ++ " " ++ g1)
        | _ =>
          match env.re_search "<title>([^<]+?) \\| Spotify</title>" html with
          | some (g1 :: _) =>
            let t := (pyReplace g1 " | Spotify" "").trim
            if 3 < t.length then some t else none
          | _ =>
            match env.re_search
                "\"name\":\"([^\"]+)\".*?\"artists\":\\[\x7b\"name\":\"([^\"]+)\"" html with
            | some (g1 :: g2 :: _) => some (g2 ++ " " ++ g1)
            | _ => none
    else
      match env.http_get url with
      | none => none
      | some html =>
        match env.re_search "<title>([^<]+)</title>" html with
        | some (g1 :: _) =>
          let t := env.re_sub " - YouTube$| \\| YouTube$" "" g1.trim
          if 3 < t.length then some t else none
        | _ => none

/-- `download_music(url)` (main.py:338-382) with its external calls
supplied by `env`; the returned string is the path of the first
downloaded mp3, `none` is a failed download or unresolvable query.
The guard `if track_title:` (main.py:350) tests Python truthiness, so
both a `None` title and an empty-string title take the `return None`
branch at main.py:356-357. -/
def download_music (env : Env) (url : String) : Option String :=
  if pyIn "youtube.com" url || pyIn "youtu.be" url then
    env.download (clean_youtube_url url)
  else
    match get_track_title_from_url env url with
    | none => none
    | some track_title =>
      if track_title != "" then
        match env.search_api track_title with
        | some api_url => env.download api_url
        | none => env.download ("ytsearch1:" ++ track_title)
      else none

/-- A sequence of independent ranker invocations, as performed by the
search workers (main.py:546): each call sees only its own query and
candidate list. -/
def rankCalls (calls : List (String × Option (List (Option Entry)))) :
    List (Except Unit (Option Entry)) :=
  calls.map (fun c => find_best_match c.1 c.2)

/-! ## Helper lemmas: folded maxima over ℚ -/

theorem le_foldlMax (l : List ℚ) (a : ℚ) : a ≤ l.foldl max a := by
  induction l generalizing a with
  | nil => exact le_refl a
  | cons x t ih => exact le_trans (le_max_left a x) (ih (max a x))

theorem foldlMax_mono (l : List ℚ) {a b : ℚ} (h : a ≤ b) :
    l.foldl max a ≤ l.foldl max b := by
  induction l generalizing a b with
  | nil => exact h
  | cons x t ih => exact ih (max_le_max h (le_refl x))

theorem foldlMax_comm (l : List ℚ) (a b : ℚ) :
    l.foldl max (max a b) = max a (l.foldl max b) := by
  induction l generalizing b with
  | nil => rfl
  | cons x t ih =>
    simp only [List.foldl_cons]
    rw [max_assoc, ih]

theorem foldlMax_attained (l : List ℚ) (a : ℚ) :
    l.foldl max a = a ∨ l.foldl max a ∈ l := by
  induction l generalizing a with
  | nil => exact Or.inl rfl
  | cons x t ih =>
    simp only [List.foldl_cons]
    rcases ih (max a x) with h | h
    · rcases max_choice a x with hm | hm
      · exact Or.inl (by rw [h, hm])
      · exact Or.inr (by rw [h, hm]; exact List.mem_cons_self x t)
    · exact Or.inr (List.mem_cons_of_mem x h)

theorem foldlMax_le (l : List ℚ) {a c : ℚ} (ha : a ≤ c)
    (hl : ∀ x ∈ l, x ≤ c) : l.foldl max a ≤ c := by
  induction l generalizing a with
  | nil => exact ha
  | cons x t ih =>
    exact ih (max_le ha (hl x (List.mem_cons_self x t)))
      (fun y hy => hl y (List.mem_cons_of_mem x hy))

/-! ## Helper lemmas: the scanning loop of `find_best_match` -/

theorem bestFold_snd (q : String) (l : List Entry) (b : Option Entry) (s : ℚ) :
    ((l.map some).foldl (bestStep q) (b, s)).2 = (l.map (matchScore q)).foldl max s := by
  induction l generalizing b s with
  | nil => rfl
  | cons e t ih =>
    simp only [List.map_cons, List.foldl_cons, bestStep]
    by_cases h : s < matchScore q e
    · rw [if_pos h, ih, max_eq_right (le_of_lt h)]
    · rw [if_neg h, ih, max_eq_left (le_of_not_lt h)]

theorem bestFold_of_le (q : String) (l : List Entry) : ∀ (b : Option Entry) (s : ℚ),
    (l.map (matchScore q)).foldl max s ≤ s →
    (l.map some).foldl (bestStep q) (b, s) = (b, s) := by
  induction l with
  | nil => intro b s _; rfl
  | cons e t ih =>
    intro b s h
    simp only [List.map_cons, List.foldl_cons] at h ⊢
    have hsc : matchScore q e ≤ s := by
      have h1 := le_foldlMax (t.map (matchScore q)) (max s (matchScore q e))
      exact le_trans (le_max_right s (matchScore q e)) (le_trans h1 h)
    have hmax : max s (matchScore q e) = s := max_eq_left hsc
    rw [hmax] at h
    have hstep : bestStep q (b, s) (some e) = (b, s) := by
      simp only [bestStep]
      exact if_neg (not_lt.mpr hsc)
    rw [hstep, ih b s h]

theorem bestFold_of_lt (q : String) (l : List Entry) : ∀ (b : Option Entry) (s : ℚ),
    s < (l.map (matchScore q)).foldl max s →
    (l.map some).foldl (bestStep q) (b, s) =
      (l.find? (fun e => decide (matchScore q e = (l.map (matchScore q)).foldl max s)),
       (l.map (matchScore q)).foldl max s) := by
  induction l with
  | nil => intro b s h; exact absurd h (lt_irrefl s)
  | cons e t ih =>
    intro b s h
    simp only [List.map_cons, List.foldl_cons] at h ⊢
    by_cases h1 : s < matchScore q e
    · have hmax : max s (matchScore q e) = matchScore q e := max_eq_right (le_of_lt h1)
      simp only [hmax] at h ⊢
      have hstep : bestStep q (b, s) (some e) = (some e, matchScore q e) := by
        simp only [bestStep]
        exact if_pos h1
      rw [hstep]
      by_cases h2 : matchScore q e < (t.map (matchScore q)).foldl max (matchScore q e)
      · rw [ih (some e) (matchScore q e) h2]
        have hne : ¬ matchScore q e = (t.map (matchScore q)).foldl max (matchScore q e) :=
          ne_of_lt h2
        rw [List.find?_cons_of_neg _ (by simpa using hne)]
      · have heq : (t.map (matchScore q)).foldl max (matchScore q e) = matchScore q e :=
          le_antisymm (le_of_not_lt h2) (le_foldlMax _ _)
        rw [bestFold_of_le q t (some e) (matchScore q e) (le_of_eq heq), heq]
        rw [List.find?_cons_of_pos _ (by simp)]
    · have hmax : max s (matchScore q e) = s := max_eq_left (le_of_not_lt h1)
      simp only [hmax] at h ⊢
      have hstep : bestStep q (b, s) (some e) = (b, s) := by
        simp only [bestStep]
        exact if_neg h1
      rw [hstep, ih b s h]
      have hne : ¬ matchScore q e = (t.map (matchScore q)).foldl max s :=
        ne_of_lt (lt_of_le_of_lt (le_of_not_lt h1) h)
      rw [List.find?_cons_of_neg _ (by simpa using hne)]

/-- The ranker agrees with the specification's selection rule on every
non-empty list of valid (non-falsy) candidates. -/
theorem find_best_match_eq_rankSpec (q : String) (c0 : Entry) (rest : List Entry) :
    find_best_match q (some ((c0 :: rest).map some)) =
      Except.ok (rankSpec q (c0 :: rest)) := by
  have htake : ((c0 :: rest).map some).take 5 = ((c0 :: rest).take 5).map some := by
    simp [List.map_take]
  have step1 : find_best_match q (some ((c0 :: rest).map some)) =
      (if (3 : ℚ)/10 < ((((c0 :: rest).take 5).map some).foldl (bestStep q) (none, 0)).2
       then Except.ok ((((c0 :: rest).take 5).map some).foldl (bestStep q) (none, 0)).1
       else Except.ok (some c0)) := by
    rw [← htake]
    rfl
  have step2 : rankSpec q (c0 :: rest) =
      (if (3 : ℚ)/10 <
          (((c0 :: rest).take 5).map (matchScore q)).foldl max (matchScore q c0)
       then ((c0 :: rest).take 5).find? (fun c => decide (matchScore q c =
          (((c0 :: rest).take 5).map (matchScore q)).foldl max (matchScore q c0)))
       else some c0) := rfl
  have h5 : (c0 :: rest).take 5 = c0 :: rest.take 4 := rfl
  rw [step1, step2, h5]
  have hM : ((c0 :: rest.take 4).map (matchScore q)).foldl max 0 =
      max 0 (((c0 :: rest.take 4).map (matchScore q)).foldl max (matchScore q c0)) := by
    simp only [List.map_cons, List.foldl_cons, max_self]
    exact foldlMax_comm _ 0 (matchScore q c0)
  by_cases hb : (3 : ℚ)/10 <
      ((c0 :: rest.take 4).map (matchScore q)).foldl max (matchScore q c0)
  · have hpos : (0 : ℚ) ≤
        ((c0 :: rest.take 4).map (matchScore q)).foldl max (matchScore q c0) :=
      le_of_lt (lt_trans (by norm_num) hb)
    have hM0 : ((c0 :: rest.take 4).map (matchScore q)).foldl max 0 =
        ((c0 :: rest.take 4).map (matchScore q)).foldl max (matchScore q c0) := by
      rw [hM, max_eq_right hpos]
    have h0lt : (0 : ℚ) < ((c0 :: rest.take 4).map (matchScore q)).foldl max 0 := by
      rw [hM0]
      exact lt_of_lt_of_le (by norm_num : (0 : ℚ) < 3/10) (le_of_lt hb)
    rw [bestFold_of_lt q (c0 :: rest.take 4) none 0 h0lt]
    simp only [hM0]
    rw [if_pos hb, if_pos hb]
  · have hnM0 : ¬ (3 : ℚ)/10 < ((c0 :: rest.take 4).map (matchScore q)).foldl max 0 := by
      rw [hM, not_lt, max_le_iff]
      exact ⟨by norm_num, not_lt.mp hb⟩
    rw [bestFold_snd q (c0 :: rest.take 4) none 0]
    rw [if_neg hnM0, if_neg hb]

/-! ## Helper lemmas: the list-splitting model `lsplit` -/

theorem lsplitF_agree (sep : List Char) :
    ∀ (f1 : Nat) (l : List Char) (f2 : Nat), l.length ≤ f1 → l.length ≤ f2 →
      lsplitF sep f1 l = lsplitF sep f2 l := by
  intro f1
  induction f1 with
  | zero =>
    intro l f2 h1 _
    have hl : l = [] := List.eq_nil_of_length_eq_zero (Nat.le_zero.mp h1)
    subst hl
    cases f2 <;> rfl
  | succ f ih =>
    intro l f2 h1 h2
    cases l with
    | nil => cases f2 <;> rfl
    | cons c rest =>
      cases f2 with
      | zero => simp at h2
      | succ g =>
        simp only [lsplitF]
        by_cases hp : (sep.isPrefixOf (c :: rest) && !sep.isEmpty) = true
        · rw [if_pos hp, if_pos hp]
          have hsep : 1 ≤ sep.length := by
            rcases sep with _ | ⟨s, ss⟩
            · simp at hp
            · simp
          have hd1 : ((c :: rest).drop sep.length).length ≤ f := by
            simp only [List.length_drop, List.length_cons]
            simp only [List.length_cons] at h1
            omega
          have hd2 : ((c :: rest).drop sep.length).length ≤ g := by
            simp only [List.length_drop, List.length_cons]
            simp only [List.length_cons] at h2
            omega
          rw [ih _ g hd1 hd2]
        · rw [if_neg hp, if_neg hp]
          have hr1 : rest.length ≤ f := by
            simp only [List.length_cons] at h1
            omega
          have hr2 : rest.length ≤ g := by
            simp only [List.length_cons] at h2
            omega
          rw [ih rest g hr1 hr2]

theorem lsplit_cons_pos (sep : List Char) (c : Char) (rest : List Char)
    (h : sep.isPrefixOf (c :: rest) = true) (hne : sep ≠ []) :
    lsplit sep (c :: rest) = [] :: lsplit sep ((c :: rest).drop sep.length) := by
  show lsplitF sep (rest.length + 1) (c :: rest) = _
  simp only [lsplitF]
  rw [if_pos (by simp [h, hne])]
  have hsep : 1 ≤ sep.length := List.length_pos.mpr hne
  have hd : ((c :: rest).drop sep.length).length ≤ rest.length := by
    simp only [List.length_drop, List.length_cons]
    omega
  rw [lsplitF_agree sep rest.length _ _ hd (le_refl _)]
  rfl

theorem lsplit_cons_neg (sep : List Char) (c : Char) (rest : List Char)
    (h : ¬ (sep.isPrefixOf (c :: rest) && !sep.isEmpty) = true) :
    lsplit sep (c :: rest) = (c :: (lsplit sep rest).headD []) :: (lsplit sep rest).tail := by
  show lsplitF sep (rest.length + 1) (c :: rest) = _
  simp only [lsplitF]
  rw [if_neg h]
  rfl

theorem lsplit_ne_nil (sep l : List Char) : lsplit sep l ≠ [] := by
  cases l with
  | nil => simp [lsplit, lsplitF]
  | cons c rest =>
    by_cases hp : (sep.isPrefixOf (c :: rest) && !sep.isEmpty) = true
    · have hne : sep ≠ [] := by
        rcases sep with _ | _
        · simp at hp
        · simp
      have hpp : sep.isPrefixOf (c :: rest) = true := by
        have hq := hp
        simp only [Bool.and_eq_true] at hq
        exact hq.1
      rw [lsplit_cons_pos sep c rest hpp hne]
      simp
    · rw [lsplit_cons_neg sep c rest hp]
      simp

theorem headD_cons_tail (r : List (List Char)) (h : r ≠ []) :
    r.headD [] :: r.tail = r := by
  cases r with
  | nil => exact absurd rfl h
  | cons x t => rfl

theorem lsplit_head_preAux (sep : List Char) :
    ∀ (n : Nat) (l : List Char), l.length ≤ n → (lsplit sep l).headD [] <+: l := by
  intro n
  induction n with
  | zero =>
    intro l h
    have hl : l = [] := List.eq_nil_of_length_eq_zero (Nat.le_zero.mp h)
    subst hl
    exact List.nil_prefix
  | succ n ih =>
    intro l h
    cases l with
    | nil => exact List.nil_prefix
    | cons c rest =>
      by_cases hp : (sep.isPrefixOf (c :: rest) && !sep.isEmpty) = true
      · have hne : sep ≠ [] := by
          rcases sep with _ | _
          · simp at hp
          · simp
        have hpp : sep.isPrefixOf (c :: rest) = true := by
          have hq := hp
          simp only [Bool.and_eq_true] at hq
          exact hq.1
        rw [lsplit_cons_pos sep c rest hpp hne]
        exact List.nil_prefix
      · rw [lsplit_cons_neg sep c rest hp]
        have hrest : rest.length ≤ n := by
          simp only [List.length_cons] at h
          omega
        have hih := ih rest hrest
        simp only [List.headD]
        exact List.cons_prefix_cons.mpr ⟨rfl, hih⟩

theorem lsplit_headD_pre (sep l : List Char) : (lsplit sep l).headD [] <+: l :=
  lsplit_head_preAux sep l.length l (le_refl _)

theorem lsplit_sepFreeAux (sep : List Char) (hne : sep ≠ []) :
    ∀ (n : Nat) (l : List Char), l.length ≤ n → ∀ x ∈ lsplit sep l, ¬ sep <:+: x := by
  intro n
  induction n with
  | zero =>
    intro l h x hx hinf
    have hl : l = [] := List.eq_nil_of_length_eq_zero (Nat.le_zero.mp h)
    subst hl
    simp only [lsplit, lsplitF, List.mem_singleton] at hx
    subst hx
    exact hne (List.infix_nil.mp hinf)
  | succ n ih =>
    intro l h x hx hinf
    cases l with
    | nil =>
      simp only [lsplit, lsplitF, List.mem_singleton] at hx
      subst hx
      exact hne (List.infix_nil.mp hinf)
    | cons c rest =>
      have hrest : rest.length ≤ n := by
        simp only [List.length_cons] at h
        omega
      by_cases hp : (sep.isPrefixOf (c :: rest) && !sep.isEmpty) = true
      · have hpp : sep.isPrefixOf (c :: rest) = true := by
          have hq := hp
          simp only [Bool.and_eq_true] at hq
          exact hq.1
        rw [lsplit_cons_pos sep c rest hpp hne] at hx
        rcases List.mem_cons.mp hx with hx | hx
        · subst hx
          exact hne (List.infix_nil.mp hinf)
        · have hdrop : ((c :: rest).drop sep.length).length ≤ n := by
            have hsep : 1 ≤ sep.length := List.length_pos.mpr hne
            simp only [List.length_drop, List.length_cons]
            simp only [List.length_cons] at h
            omega
          exact ih _ hdrop x hx hinf
      · rw [lsplit_cons_neg sep c rest hp] at hx
        have hr := lsplit_ne_nil sep rest
        rcases hr2 : lsplit sep rest with _ | ⟨hd, tl⟩
        · exact absurd hr2 hr
        · rw [hr2] at hx
          simp only [List.headD, List.tail] at hx
          rcases List.mem_cons.mp hx with hx | hx
          · subst hx
            rcases List.infix_cons_iff.mp hinf with hpre | hinf2
            · have hhd : hd <+: rest := by
                have := lsplit_headD_pre sep rest
                rw [hr2] at this
                exact this
              have hcp : c :: hd <+: c :: rest := List.cons_prefix_cons.mpr ⟨rfl, hhd⟩
              have : sep <+: c :: rest := hpre.trans hcp
              have hb : sep.isPrefixOf (c :: rest) = true := by
                simpa using this
              exact hp (by simp [hb, hne])
            · exact ih rest hrest hd (by
                rw [hr2]; exact List.mem_cons_self hd tl) hinf2
          · exact ih rest hrest x (by
              rw [hr2]; exact List.mem_cons_of_mem hd hx) hinf

theorem lsplit_sepFree (sep : List Char) (hne : sep ≠ []) (l : List Char) :
    ∀ x ∈ lsplit sep l, ¬ sep <:+: x :=
  lsplit_sepFreeAux sep hne l.length l (le_refl _)

theorem lsplit_memInfAux (sep : List Char) :
    ∀ (n : Nat) (l : List Char), l.length ≤ n → ∀ x ∈ lsplit sep l, x <:+: l := by
  intro n
  induction n with
  | zero =>
    intro l h x hx
    have hl : l = [] := List.eq_nil_of_length_eq_zero (Nat.le_zero.mp h)
    subst hl
    simp only [lsplit, lsplitF, List.mem_singleton] at hx
    subst hx
    exact List.infix_rfl
  | succ n ih =>
    intro l h x hx
    cases l with
    | nil =>
      simp only [lsplit, lsplitF, List.mem_singleton] at hx
      subst hx
      exact List.infix_rfl
    | cons c rest =>
      have hrest : rest.length ≤ n := by
        simp only [List.length_cons] at h
        omega
      by_cases hp : (sep.isPrefixOf (c :: rest) && !sep.isEmpty) = true
      · have hne : sep ≠ [] := by
          rcases sep with _ | _
          · simp at hp
          · simp
        have hpp : sep.isPrefixOf (c :: rest) = true := by
          have hq := hp
          simp only [Bool.and_eq_true] at hq
          exact hq.1
        rw [lsplit_cons_pos sep c rest hpp hne] at hx
        rcases List.mem_cons.mp hx with hx | hx
        · subst hx
          exact List.nil_infix
        · have hdrop : ((c :: rest).drop sep.length).length ≤ n := by
            have hsep : 1 ≤ sep.length := List.length_pos.mpr hne
            simp only [List.length_drop, List.length_cons]
            simp only [List.length_cons] at h
            omega
          have hx2 := ih _ hdrop x hx
          exact hx2.trans ((List.drop_suffix sep.length (c :: rest)).isInfix)
      · rw [lsplit_cons_neg sep c rest hp] at hx
        have hr := lsplit_ne_nil sep rest
        rcases hr2 : lsplit sep rest with _ | ⟨hd, tl⟩
        · exact absurd hr2 hr
        · rw [hr2] at hx
          simp only [List.headD, List.tail] at hx
          rcases List.mem_cons.mp hx with hx | hx
          · subst hx
            have hhd : hd <+: rest := by
              have hq := lsplit_headD_pre sep rest
              rw [hr2] at hq
              exact hq
            exact (List.cons_prefix_cons.mpr ⟨rfl, hhd⟩).isInfix
          · have hx2 := ih rest hrest x (by rw [hr2]; exact List.mem_cons_of_mem hd hx)
            exact hx2.trans (List.infix_cons_iff.mpr (Or.inr List.infix_rfl))

theorem lsplit_memInf (sep l : List Char) : ∀ x ∈ lsplit sep l, x <:+: l :=
  lsplit_memInfAux sep l.length l (le_refl _)

theorem lsplit_len2Aux (sep : List Char) (hne : sep ≠ []) :
    ∀ (n : Nat) (l : List Char), l.length ≤ n → sep <:+: l → 2 ≤ (lsplit sep l).length := by
  intro n
  induction n with
  | zero =>
    intro l h hinf
    have hl : l = [] := List.eq_nil_of_length_eq_zero (Nat.le_zero.mp h)
    subst hl
    exact absurd (List.infix_nil.mp hinf) hne
  | succ n ih =>
    intro l h hinf
    cases l with
    | nil => exact absurd (List.infix_nil.mp hinf) hne
    | cons c rest =>
      have hrest : rest.length ≤ n := by
        simp only [List.length_cons] at h
        omega
      by_cases hp : (sep.isPrefixOf (c :: rest) && !sep.isEmpty) = true
      · have hpp : sep.isPrefixOf (c :: rest) = true := by
          have hq := hp
          simp only [Bool.and_eq_true] at hq
          exact hq.1
        rw [lsplit_cons_pos sep c rest hpp hne]
        have h1 := lsplit_ne_nil sep ((c :: rest).drop sep.length)
        have h2 : 1 ≤ (lsplit sep ((c :: rest).drop sep.length)).length :=
          List.length_pos.mpr h1
        simp only [List.length_cons]
        omega
      · rw [lsplit_cons_neg sep c rest hp]
        rcases List.infix_cons_iff.mp hinf with hpre | hinf2
        · have hb : sep.isPrefixOf (c :: rest) = true := by simpa using hpre
          exact absurd (by simp [hb, hne]) hp
        · have h2 := ih rest hrest hinf2
          have hr := lsplit_ne_nil sep rest
          rcases hr2 : lsplit sep rest with _ | ⟨hd, tl⟩
          · exact absurd hr2 hr
          · rw [hr2] at h2
            simp only [hr2, List.headD, List.tail, List.length_cons] at h2 ⊢
            omega

theorem lsplit_len2 (sep : List Char) (hne : sep ≠ []) (l : List Char)
    (h : sep <:+: l) : 2 ≤ (lsplit sep l).length :=
  lsplit_len2Aux sep hne l.length l (le_refl _) h

theorem listContains_iff (sub : List Char) :
    ∀ (l : List Char), listContains sub l = true ↔ sub <:+: l := by
  intro l
  induction l with
  | nil =>
    simp [listContains, List.isEmpty_iff, List.infix_nil]
  | cons c t ih =>
    simp only [listContains, Bool.or_eq_true, List.infix_cons_iff]
    constructor
    · rintro (h | h)
      · exact Or.inl (by simpa using h)
      · exact Or.inr (ih.mp h)
    · rintro (h | h)
      · exact Or.inl (by simpa using h)
      · exact Or.inr (ih.mpr h)

theorem pyIn_iff (sub s : String) : pyIn sub s = true ↔ sub.data <:+: s.data :=
  listContains_iff sub.data s.data

theorem pyIn_false_iff (sub s : String) : pyIn sub s = false ↔ ¬ sub.data <:+: s.data := by
  rw [← pyIn_iff]
  cases h : pyIn sub s <;> simp

theorem sep_prefix_append_reduce (sep a b : List Char) (hne : sep ≠ [])
    (hna : ¬ sep <:+: a)
    (hk : ∀ k, 0 < k → k < sep.length → sep.take k <:+ a → ¬ sep.drop k <+: b) :
    ∀ a2, a2 ≠ [] → a2 <:+ a → ¬ sep <+: a2 ++ b := by
  intro a2 hne2 hsuf hpre
  by_cases hlen : sep.length ≤ a2.length
  · have h1 : sep = (a2 ++ b).take sep.length := List.prefix_iff_eq_take.mp hpre
    have h2 : (a2 ++ b).take sep.length = a2.take sep.length := by
      rw [List.take_append_eq_append_take]
      have h0 : sep.length - a2.length = 0 := Nat.sub_eq_zero_of_le hlen
      rw [h0]
      simp
    have h3 : sep <+: a2 := by
      rw [h1, h2]
      exact List.take_prefix sep.length a2
    exact hna (List.infix_iff_prefix_suffix.mpr ⟨a2, h3, hsuf⟩)
  · push_neg at hlen
    have hk0 : 0 < a2.length := List.length_pos.mpr hne2
    have h1 : sep.take a2.length <+: a2 ++ b :=
      (List.take_prefix a2.length sep).trans hpre
    have h2 : sep.take a2.length = (a2 ++ b).take a2.length := by
      rw [List.prefix_iff_eq_take] at h1
      have hlen2 : (sep.take a2.length).length = a2.length := by
        rw [List.length_take]
        omega
      rw [hlen2] at h1
      exact h1
    have h3 : (a2 ++ b).take a2.length = a2 := List.take_left' rfl
    have h4 : sep.take a2.length <:+ a := by
      rw [h2, h3]
      exact hsuf
    have h5 : sep = a2 ++ sep.drop a2.length := by
      conv_lhs => rw [← List.take_append_drop a2.length sep]
      rw [h2, h3]
    have h6 : a2 ++ sep.drop a2.length <+: a2 ++ b := by
      rw [← h5]
      exact hpre
    have h7 : sep.drop a2.length <+: b := (List.prefix_append_right_inj a2).mp h6
    exact hk a2.length hk0 hlen h4 h7

theorem sep_notInf_appendAux (sep b : List Char) (hne : sep ≠ []) (hnb : ¬ sep <:+: b) :
    ∀ a : List Char, ¬ sep <:+: a →
      (∀ k, 0 < k → k < sep.length → sep.take k <:+ a → ¬ sep.drop k <+: b) →
      ¬ sep <:+: a ++ b := by
  intro a
  induction a with
  | nil =>
    intro _ _
    simpa using hnb
  | cons c a' ih =>
    intro hna hk hinf
    rcases List.infix_cons_iff.mp hinf with hpre | hinf2
    · exact sep_prefix_append_reduce sep (c :: a') b hne hna hk (c :: a') (by simp)
        (List.suffix_refl _) hpre
    · refine ih ?_ ?_ hinf2
      · intro h
        exact hna (h.trans (List.infix_cons_iff.mpr (Or.inr List.infix_rfl)))
      · intro k h1 h2 h3
        exact hk k h1 h2 (h3.trans (List.suffix_cons c a'))

theorem lsplit_appendAux (sep b : List Char) (hne : sep ≠ []) :
    ∀ a : List Char,
      (∀ a2, a2 ≠ [] → a2 <:+ a → ¬ sep <+: a2 ++ b) →
      lsplit sep (a ++ b) =
        (a ++ (lsplit sep b).headD []) :: (lsplit sep b).tail := by
  intro a
  induction a with
  | nil =>
    intro _
    simp only [List.nil_append]
    rw [headD_cons_tail _ (lsplit_ne_nil sep b)]
  | cons c a' ih =>
    intro H
    have hnotpre : ¬ sep.isPrefixOf (c :: (a' ++ b)) = true := by
      intro hb
      exact H (c :: a') (by simp) (List.suffix_refl _)
        (by simpa using hb)
    rw [List.cons_append, lsplit_cons_neg sep c (a' ++ b) (by
      intro hb
      simp only [Bool.and_eq_true] at hb
      exact hnotpre hb.1)]
    rw [ih (fun a2 h1 h2 => H a2 h1 (h2.trans (List.suffix_cons c a')))]
    simp only [List.headD, List.tail]
    rw [List.cons_append]

theorem lsplit_sep_append (sep b : List Char) (hne : sep ≠ []) :
    lsplit sep (sep ++ b) = [] :: lsplit sep b := by
  rcases hsep : sep with _ | ⟨s0, srest⟩
  · exact absurd hsep hne
  · have hpre : (s0 :: srest).isPrefixOf (s0 :: (srest ++ b)) = true := by
      have h1 : (s0 :: srest) <+: (s0 :: srest) ++ b := List.prefix_append _ _
      simpa using h1
    have hstep := lsplit_cons_pos (s0 :: srest) s0 (srest ++ b) hpre (by simp)
    have h2 : (s0 :: (srest ++ b)).drop (s0 :: srest).length = b := by
      have h3 : s0 :: (srest ++ b) = (s0 :: srest) ++ b := by simp
      rw [h3, List.drop_left]
    rw [List.cons_append, hstep, h2]

theorem lsplit_noOcc (sep l : List Char) (hne : sep ≠ []) (h : ¬ sep <:+: l) :
    lsplit sep l = [l] := by
  have H : ∀ a2, a2 ≠ [] → a2 <:+ l → ¬ sep <+: a2 ++ ([] : List Char) := by
    intro a2 _ h2 hpre
    rw [List.append_nil] at hpre
    exact h (List.infix_iff_prefix_suffix.mpr ⟨a2, hpre, h2⟩)
  have happ := lsplit_appendAux sep [] hne l H
  rw [List.append_nil] at happ
  rw [happ]
  simp [lsplit, lsplitF]

theorem not_inf_of_contains_false {sub l : List Char}
    (h : listContains sub l = false) : ¬ sub <:+: l := by
  intro hinf
  rw [← listContains_iff] at hinf
  rw [h] at hinf
  exact Bool.noConfusion hinf

/-- A cleaned URL of the form `https://www.youtube.com/watch?v=<id>`
is a fixpoint of `clean_youtube_url` as long as the id contains no
`v=`, no `youtu.be/` and no `&`. -/
theorem clean_fixpoint (vid : List Char)
    (hv : ¬ ("v=").data <:+: vid)
    (hy : ¬ ("youtu.be/").data <:+: vid)
    (ha : ¬ ("&").data <:+: vid) :
    clean_youtube_url ("https://www.youtube.com/watch?v=" ++ String.mk vid) =
      "https://www.youtube.com/watch?v=" ++ String.mk vid := by
  have h1 : ¬ ("youtu.be/").data <:+: ("https://www.youtube.com/watch?v=").data ++ vid := by
    apply sep_notInf_appendAux ("youtu.be/").data vid (by decide) hy
      ("https://www.youtube.com/watch?v=").data (not_inf_of_contains_false (by decide))
    intro k hk1 hk2 hk3
    exfalso
    have hlen : (("youtu.be/").data).length = 9 := by decide
    rw [hlen] at hk2
    interval_cases k <;> revert hk3 <;> decide
  have h2 : pyIn "youtu.be/" ("https://www.youtube.com/watch?v=" ++ String.mk vid) = false := by
    rw [pyIn_false_iff]
    exact h1
  have h3 : pyIn "youtube.com/watch"
      ("https://www.youtube.com/watch?v=" ++ String.mk vid) = true := by
    rw [pyIn_iff]
    have hinf : ("youtube.com/watch").data <:+: ("https://www.youtube.com/watch?v=").data := by
      decide
    exact hinf.trans (List.prefix_append _ vid).isInfix
  have h4 : pyIn "v=" ("https://www.youtube.com/watch?v=" ++ String.mk vid) = true := by
    rw [pyIn_iff]
    have hinf : ("v=").data <:+: ("https://www.youtube.com/watch?v=").data := by decide
    exact hinf.trans (List.prefix_append _ vid).isInfix
  have h6 : lsplit ("&").data vid = [vid] := lsplit_noOcc _ vid (by decide) ha
  have h5 : lsplit ("v=").data (("https://www.youtube.com/watch?v=" ++ String.mk vid)).data
      = [("https://www.youtube.com/watch?").data, vid] := by
    show lsplit ("v=").data (("https://www.youtube.com/watch?").data ++ (("v=").data ++ vid)) = _
    rw [lsplit_appendAux ("v=").data (("v=").data ++ vid) (by decide)
      ("https://www.youtube.com/watch?").data ?_]
    · rw [lsplit_sep_append ("v=").data vid (by decide),
        lsplit_noOcc ("v=").data vid (by decide) hv]
      simp
    · apply sep_prefix_append_reduce ("v=").data ("https://www.youtube.com/watch?").data
        (("v=").data ++ vid) (by decide) (not_inf_of_contains_false (by decide))
      intro k hk1 hk2 hk3
      exfalso
      have hlen : (("v=").data).length = 2 := by decide
      rw [hlen] at hk2
      interval_cases k <;> revert hk3 <;> decide
  simp only [clean_youtube_url, h2, h3, h4, Bool.false_eq_true, if_false, if_true, h5, h6,
    List.headD]

/-- First pass of `clean_youtube_url` through the `youtube.com/watch`
branch: the result is the canonical form, and the extracted id is free
of `v=`, `&`, and (when the input has none) `youtu.be/`. -/
theorem clean_idem_watch (url : String)
    (h : pyIn "youtu.be/" url = false)
    (hw : pyIn "youtube.com/watch" url = true)
    (hv : pyIn "v=" url = true) :
    clean_youtube_url (clean_youtube_url url) = clean_youtube_url url := by
  have hinf : ("v=").data <:+: url.data := (pyIn_iff _ _).mp hv
  have hlen := lsplit_len2 ("v=").data (by decide) url.data hinf
  rcases hsplit : lsplit ("v=").data url.data with _ | ⟨x0, rest⟩
  · exact absurd hsplit (lsplit_ne_nil _ _)
  · rcases rest with _ | ⟨seg, rest2⟩
    · rw [hsplit] at hlen
      simp at hlen
    · have hclean : clean_youtube_url url =
          "https://www.youtube.com/watch?v=" ++
            String.mk ((lsplit ("&").data seg).headD []) := by
        simp only [clean_youtube_url, h, hw, hv, hsplit, Bool.false_eq_true, if_false, if_true]
      have hsegmem : seg ∈ lsplit ("v=").data url.data := by
        rw [hsplit]
        exact List.mem_cons_of_mem x0 (List.mem_cons_self seg rest2)
      have hsegv : ¬ ("v=").data <:+: seg := lsplit_sepFree _ (by decide) _ seg hsegmem
      have hseginf : seg <:+: url.data := lsplit_memInf _ _ seg hsegmem
      have hvidmem : (lsplit ("&").data seg).headD [] ∈ lsplit ("&").data seg := by
        rcases hh : lsplit ("&").data seg with _ | ⟨y, ys⟩
        · exact absurd hh (lsplit_ne_nil _ _)
        · simp
      have hvida : ¬ ("&").data <:+: (lsplit ("&").data seg).headD [] :=
        lsplit_sepFree _ (by decide) _ _ hvidmem
      have hvidpre : (lsplit ("&").data seg).headD [] <+: seg := lsplit_headD_pre _ _
      have hvidv : ¬ ("v=").data <:+: (lsplit ("&").data seg).headD [] :=
        fun hx => hsegv (hx.trans hvidpre.isInfix)
      have hvidy : ¬ ("youtu.be/").data <:+: (lsplit ("&").data seg).headD [] :=
        fun hx => (pyIn_false_iff _ _).mp h (hx.trans (hvidpre.isInfix.trans hseginf))
      rw [hclean]
      exact clean_fixpoint _ hvidv hvidy hvida

/-- First pass of `clean_youtube_url` through the `youtu.be` branch;
idempotence holds whenever the extracted short id does not itself
contain `v=`. -/
theorem clean_idem_be (url : String)
    (h : pyIn "youtu.be/" url = true)
    (hid : ¬ ("v=").data <:+: youtubeShortId url) :
    clean_youtube_url (clean_youtube_url url) = clean_youtube_url url := by
  have hinf : ("youtu.be/").data <:+: url.data := (pyIn_iff _ _).mp h
  have hlen := lsplit_len2 ("youtu.be/").data (by decide) url.data hinf
  rcases hsplit : lsplit ("youtu.be/").data url.data with _ | ⟨x0, rest⟩
  · exact absurd hsplit (lsplit_ne_nil _ _)
  · rcases rest with _ | ⟨seg, rest2⟩
    · rw [hsplit] at hlen
      simp at hlen
    · have hid2 : youtubeShortId url =
          (lsplit ("&").data ((lsplit ("?").data seg).headD [])).headD [] := by
        simp only [youtubeShortId, hsplit]
      have hclean : clean_youtube_url url =
          "https://www.youtube.com/watch?v=" ++ String.mk (youtubeShortId url) := by
        simp only [clean_youtube_url, h, hsplit, if_true, hid2]
      have hsegmem : seg ∈ lsplit ("youtu.be/").data url.data := by
        rw [hsplit]
        exact List.mem_cons_of_mem x0 (List.mem_cons_self seg rest2)
      have hsegy : ¬ ("youtu.be/").data <:+: seg :=
        lsplit_sepFree _ (by decide) _ seg hsegmem
      have hseg2pre : (lsplit ("?").data seg).headD [] <+: seg := lsplit_headD_pre _ _
      have hvidmem : (lsplit ("&").data ((lsplit ("?").data seg).headD [])).headD [] ∈
          lsplit ("&").data ((lsplit ("?").data seg).headD []) := by
        rcases hh : lsplit ("&").data ((lsplit ("?").data seg).headD []) with _ | ⟨y, ys⟩
        · exact absurd hh (lsplit_ne_nil _ _)
        · simp
      have hvida : ¬ ("&").data <:+: youtubeShortId url := by
        rw [hid2]
        exact lsplit_sepFree _ (by decide) _ _ hvidmem
      have hvidpre : youtubeShortId url <+: seg := by
        rw [hid2]
        exact (lsplit_headD_pre _ _).trans hseg2pre
      have hvidy : ¬ ("youtu.be/").data <:+: youtubeShortId url :=
        fun hx => hsegy (hx.trans hvidpre.isInfix)
      rw [hclean]
      exact clean_fixpoint _ hid hvidy hvida

/-! ## Arithmetic helpers for the score-formula claim -/

theorem ifAdd (p : Prop) [Decidable p] (a b : ℚ) :
    (if p then a + b else a) = a + (if p then b else 0) := by
  split_ifs <;> ring

theorem ifSub (p : Prop) [Decidable p] (a b : ℚ) :
    (if p then a - b else a) = a - (if p then b else 0) := by
  split_ifs <;> ring

/-! ## The claims -/

/-- C1: for every query string and every candidate, the score computed
by the ranker (`matchScore`, the line-by-line embedding of
main.py:486-510) equals the specification's formula (`specScore`):
word-overlap fraction plus 0.3 for a long query word occurring in the
title, plus 0.1 for the marker vocabulary, minus 0.2 for an
unrequested "live", minus 0.1 for an unrequested "remix". -/
theorem claim_C1 (q : String) (c : Entry) : matchScore q c = specScore q c := by
  simp only [matchScore, specScore]
  rw [ifSub, ifSub, ifAdd, ifAdd]
  have hbase : (if ((pyWords (lowerStr q)).dedup).isEmpty then (0 : ℚ)
      else ((((pyWords (lowerStr q)).dedup).filter (fun w =>
        (pyWords (lowerStr c.title)).contains w ||
        (pyWords (lowerStr c.uploader)).contains w)).length : ℚ) /
        (((pyWords (lowerStr q)).dedup).length : ℚ)) =
      ((((pyWords (lowerStr q)).dedup).filter (fun w =>
        w ∈ pyWords (lowerStr c.title) ∪ pyWords (lowerStr c.uploader))).length : ℚ) /
        (((pyWords (lowerStr q)).dedup).length : ℚ) := by
    have hfil : ((pyWords (lowerStr q)).dedup).filter (fun w =>
        (pyWords (lowerStr c.title)).contains w ||
        (pyWords (lowerStr c.uploader)).contains w) =
        ((pyWords (lowerStr q)).dedup).filter (fun w =>
        w ∈ pyWords (lowerStr c.title) ∪ pyWords (lowerStr c.uploader)) := by
      apply List.filter_congr
      intro w _
      simp [List.mem_union_iff]
    rw [hfil]
    cases h : (pyWords (lowerStr q)).dedup with
    | nil => simp
    | cons x t => simp
  rw [hbase]
  congr 1
  congr 1
  congr 1
  congr 1
  · exact if_congr (by simp) rfl rfl
  · exact if_congr (by simp) rfl rfl
  · exact if_congr (by simp [Bool.and_eq_true, and_comm]) rfl rfl
  · exact if_congr (by simp [Bool.and_eq_true, and_comm]) rfl rfl

/-- C2: for every query and every non-empty list of valid candidates,
the ranker selects the candidate with the strictly highest score among
the first five (first-wins on ties), and falls back to the first
candidate in the original order when the best score does not exceed
0.3 — that is, it agrees with `rankSpec`, the selection rule as the
specification words it. -/
theorem claim_C2 (q : String) (c0 : Entry) (rest : List Entry) :
    find_best_match q (some ((c0 :: rest).map some)) =
      Except.ok (rankSpec q (c0 :: rest)) :=
  find_best_match_eq_rankSpec q c0 rest

/-- C3 is false on the code: on an empty candidate list the ranker
does not return the `None` failure value — the fallback
`search_results['entries'][0]` (main.py:516) raises an uncaught
`IndexError` (modelled `Except.error ()`). -/
theorem claim_C3_counterexample :
    find_best_match "test song" (some []) = Except.error () ∧
    (Except.error () : Except Unit (Option Entry)) ≠ Except.ok none := by
  constructor
  · show (if (3 : ℚ)/10 < (0 : ℚ) then Except.ok (none : Option Entry) else Except.error ()) =
      Except.error ()
    rw [if_neg (by norm_num)]
  · simp

/-- C3 (amended): the ranker returns the failure value `None` exactly
when called with a falsy results object or one without an `'entries'`
key; for a results object whose entry list is empty it instead raises
an `IndexError` out of the call (which its caller catches at
main.py:551-553). -/
theorem claim_C3_amended (q : String) :
    find_best_match q none = Except.ok none ∧
    find_best_match q (some []) = Except.error () := by
  refine ⟨rfl, ?_⟩
  show (if (3 : ℚ)/10 < (0 : ℚ) then Except.ok (none : Option Entry) else Except.error ()) =
    Except.error ()
  rw [if_neg (by norm_num)]

/-- C4: for every query and every non-empty candidate list of length
at most 5, the ranker returns an element of that list — it never
synthesizes a candidate that was not in the list. -/
theorem claim_C4 (q : String) (es : List Entry) (h1 : es ≠ []) (h2 : es.length ≤ 5) :
    ∃ e, e ∈ es ∧ find_best_match q (some (es.map some)) = Except.ok (some e) := by
  rcases es with _ | ⟨c0, rest⟩
  · exact absurd rfl h1
  · rw [find_best_match_eq_rankSpec]
    by_cases hb : (3 : ℚ)/10 <
        (((c0 :: rest).take 5).map (matchScore q)).foldl max (matchScore q c0)
    · have hattain : ∃ c ∈ (c0 :: rest).take 5, matchScore q c =
          (((c0 :: rest).take 5).map (matchScore q)).foldl max (matchScore q c0) := by
        rcases foldlMax_attained (((c0 :: rest).take 5).map (matchScore q)) (matchScore q c0)
          with hcase | hcase
        · exact ⟨c0, List.mem_cons_self c0 (rest.take 4), hcase.symm⟩
        · rcases List.mem_map.mp hcase with ⟨c, hc1, hc2⟩
          exact ⟨c, hc1, hc2⟩
      have hfind : ∃ e, ((c0 :: rest).take 5).find?
          (fun c => decide (matchScore q c =
            (((c0 :: rest).take 5).map (matchScore q)).foldl max (matchScore q c0)))
          = some e := by
        rcases hattain with ⟨c, hc1, hc2⟩
        cases hfq : ((c0 :: rest).take 5).find?
            (fun c => decide (matchScore q c =
              (((c0 :: rest).take 5).map (matchScore q)).foldl max (matchScore q c0))) with
        | some e => exact ⟨e, rfl⟩
        | none =>
          have hnone := List.find?_eq_none.mp hfq c hc1
          simp [hc2] at hnone
      rcases hfind with ⟨e, he⟩
      refine ⟨e, ?_, ?_⟩
      · exact List.take_subset 5 (c0 :: rest) (List.mem_of_find?_eq_some he)
      · simp only [rankSpec]
        rw [if_pos hb, he]
    · refine ⟨c0, List.mem_cons_self c0 rest, ?_⟩
      simp only [rankSpec]
      rw [if_neg hb]

/-- Witness for C4 at a concrete input. -/
theorem claim_C4_witness :
    (([(⟨"song", "artist"⟩ : Entry)]) ≠ [] ∧
      ([(⟨"song", "artist"⟩ : Entry)]).length ≤ 5) ∧
    ∃ e, e ∈ [(⟨"song", "artist"⟩ : Entry)] ∧
      find_best_match "song" (some ([(⟨"song", "artist"⟩ : Entry)].map some)) =
        Except.ok (some e) :=
  ⟨⟨by simp, by simp⟩, claim_C4 "song" [⟨"song", "artist"⟩] (by simp) (by simp)⟩

/-- C5 is false on the code: the `list=` rule of `is_playlist` only
fires inside the `youtube.com` branch, so a non-YouTube URL containing
`list=` is classified as a single item; and removing the `list=`
parameter from a YouTube URL whose path still contains `playlist`
leaves it classified as a collection. -/
theorem claim_C5_counterexample :
    pyIn "list=" "https://example.com/feed?list=abc" = true ∧
    is_playlist "https://example.com/feed?list=abc" = false ∧
    is_playlist "https://www.youtube.com/playlist?list=PL1" = true ∧
    is_playlist "https://www.youtube.com/playlist" = true :=
  ⟨by decide, by decide, by decide, by decide⟩

/-- C5 (amended): among URLs containing `youtube.com`, any URL
containing `list=` is classified as a collection, and a URL containing
neither `list=` nor `playlist` (in particular, one obtained by
removing the list parameter, when no `playlist` marker remains) is
classified as a single item.  URLs of other hosts are never classified
by the `list=` rule. -/
theorem claim_C5_amended (url : String) (hy : pyIn "youtube.com" url = true) :
    (pyIn "list=" url = true → is_playlist url = true) ∧
    (pyIn "list=" url = false → pyIn "playlist" url = false → is_playlist url = false) := by
  constructor
  · intro hl
    simp [is_playlist, hy, hl]
  · intro hl hp
    simp [is_playlist, hy, hl, hp]

/-- Witness for C5 at a concrete input. -/
theorem claim_C5_witness :
    (pyIn "youtube.com" "https://www.youtube.com/watch?v=a&list=b" = true ∧
     pyIn "list=" "https://www.youtube.com/watch?v=a&list=b" = true) ∧
    is_playlist "https://www.youtube.com/watch?v=a&list=b" = true :=
  ⟨⟨by decide, by decide⟩,
   (claim_C5_amended "https://www.youtube.com/watch?v=a&list=b" (by decide)).1 (by decide)⟩

/-- C6 is false on the code: `clean_youtube_url` is not idempotent.
For the short link `https://youtu.be/abv=cd` the first pass yields
`https://www.youtube.com/watch?v=abv=cd`, and the second pass splits
that output at its first `v=` occurrence, yielding
`https://www.youtube.com/watch?v=ab`. -/
theorem claim_C6_counterexample :
    clean_youtube_url (clean_youtube_url "https://youtu.be/abv=cd") ≠
      clean_youtube_url "https://youtu.be/abv=cd" := by decide

/-- C6 (amended): `clean_youtube_url` is idempotent on every URL
except a `youtu.be` short link whose extracted video id itself
contains `v=`: if the URL either does not contain `youtu.be/`, or the
id extracted by the `youtu.be` branch is free of `v=`, then
`clean(clean(url)) = clean(url)`. -/
theorem claim_C6_amended (url : String)
    (h : pyIn "youtu.be/" url = true → ¬ ("v=").data <:+: youtubeShortId url) :
    clean_youtube_url (clean_youtube_url url) = clean_youtube_url url := by
  cases hbe : pyIn "youtu.be/" url with
  | true => exact clean_idem_be url hbe (h hbe)
  | false =>
    by_cases hw : pyIn "youtube.com/watch" url = true
    · by_cases hv : pyIn "v=" url = true
      · exact clean_idem_watch url hbe hw hv
      · have hvf : pyIn "v=" url = false := by simpa using hv
        have hclean : clean_youtube_url url = url := by
          simp only [clean_youtube_url, hbe, hw, hvf, Bool.false_eq_true, if_false, if_true]
        rw [hclean, hclean]
    · have hwf : pyIn "youtube.com/watch" url = false := by simpa using hw
      have hclean : clean_youtube_url url = url := by
        simp only [clean_youtube_url, hbe, hwf, Bool.false_eq_true, if_false]
      rw [hclean, hclean]

/-- Witness for C6 (amended) at a concrete short link whose id is
clean. -/
theorem claim_C6_witness :
    clean_youtube_url (clean_youtube_url "https://youtu.be/dQw4?si=9") =
      clean_youtube_url "https://youtu.be/dQw4?si=9" :=
  claim_C6_amended "https://youtu.be/dQw4?si=9" (fun _ => by decide)

/-- C7: for an unrecognized link (no recognized service in the URL)
whose host is unreachable — the metadata fetch and the page fetch both
fail — the normalizer `get_track_title_from_url` returns the failure
value `None` rather than raising, and `download_music` propagates the
failure as `None`. -/
theorem claim_C7 (env : Env) (url : String)
    (hydl : env.extract_info url = none) (hget : env.http_get url = none)
    (happle : pyIn "music.apple.com" url = false)
    (hspotify : pyIn "spotify.com" url = false)
    (hyt1 : pyIn "youtube.com" url = false)
    (hyt2 : pyIn "youtu.be" url = false) :
    get_track_title_from_url env url = none ∧ download_music env url = none := by
  have hg : get_track_title_from_url env url = none := by
    simp [get_track_title_from_url, hydl, happle, hspotify, hget]
  refine ⟨hg, ?_⟩
  simp [download_music, hyt1, hyt2, hg]

/-- Witness for C7: every collaborator of `failEnv` fails. -/
theorem claim_C7_witness :
    (failEnv.extract_info "https://example.org/track/99" = none ∧
     failEnv.http_get "https://example.org/track/99" = none ∧
     pyIn "music.apple.com" "https://example.org/track/99" = false) ∧
    (get_track_title_from_url failEnv "https://example.org/track/99" = none ∧
     download_music failEnv "https://example.org/track/99" = none) :=
  ⟨⟨rfl, rfl, by decide⟩,
   claim_C7 failEnv "https://example.org/track/99" rfl rfl (by decide) (by decide)
     (by decide) (by decide)⟩

/-- C8: ranking is a pure function of the query and the candidate
list: in any sequence of ranker invocations, each call's result is
`find_best_match` of that call's own arguments, unaffected by the
calls before or after it. -/
theorem claim_C8 (pre post : List (String × Option (List (Option Entry))))
    (q : String) (sr : Option (List (Option Entry))) :
    rankCalls (pre ++ (q, sr) :: post) =
      rankCalls pre ++ find_best_match q sr :: rankCalls post := by
  simp [rankCalls]

/-- With no query words, every candidate's score is at most 0.1: the
word-overlap term is defined to be 0 by the guard at main.py:496, the
long-word bonus is unattainable, and the only positive term left is
the 0.1 marker bonus. -/
theorem matchScore_le_of_no_words (q : String) (h : pyWords (lowerStr q) = [])
    (e : Entry) : matchScore q e ≤ 1/10 := by
  simp only [matchScore, h, List.dedup_nil, List.isEmpty_nil, if_true, List.any_nil,
    Bool.false_eq_true, if_false]
  split_ifs <;> norm_num

/-- C9: for every query with no words (empty or whitespace-only) and
every non-empty candidate list, the ranker does not divide by zero —
the overlap term is the guarded 0 of main.py:496, so every score is at
most 0.1 < 0.3 — and the ranker returns the first candidate in the
original order. -/
theorem claim_C9 (q : String) (c0 : Entry) (rest : List Entry)
    (h : pyWords (lowerStr q) = []) :
    find_best_match q (some ((c0 :: rest).map some)) = Except.ok (some c0) := by
  rw [find_best_match_eq_rankSpec]
  have hb : ¬ (3 : ℚ)/10 <
      (((c0 :: rest).take 5).map (matchScore q)).foldl max (matchScore q c0) := by
    rw [not_lt]
    have hbound := foldlMax_le (((c0 :: rest).take 5).map (matchScore q))
      (matchScore_le_of_no_words q h c0)
      (fun x hx => by
        rcases List.mem_map.mp hx with ⟨c, _, hc⟩
        rw [← hc]
        exact matchScore_le_of_no_words q h c)
    exact le_trans hbound (by norm_num)
  simp only [rankSpec]
  rw [if_neg hb]

/-- Witness for C9 at a whitespace-only query. -/
theorem claim_C9_witness :
    pyWords (lowerStr "   ") = [] ∧
    find_best_match "   "
        (some ([(⟨"Song (Official Audio)", "Artist"⟩ : Entry)].map some)) =
      Except.ok (some ⟨"Song (Official Audio)", "Artist"⟩) :=
  ⟨by decide, claim_C9 "   " ⟨"Song (Official Audio)", "Artist"⟩ [] (by decide)⟩

/-- C10: `clean_youtube_url` is total and conservative — it is a plain
function into strings (the source's `try/except` guarantees no
exception escapes, modelled by the total fallback arms), and on any
input that contains neither `youtu.be/` nor both `youtube.com/watch`
and a `v=` parameter, the output equals the input unchanged. -/
theorem claim_C10 (url : String) (h1 : pyIn "youtu.be/" url = false)
    (h2 : pyIn "youtube.com/watch" url = false ∨ pyIn "v=" url = false) :
    clean_youtube_url url = url := by
  rcases h2 with h2 | h2
  · simp only [clean_youtube_url, h1, h2, Bool.false_eq_true, if_false]
  · by_cases h3 : pyIn "youtube.com/watch" url = true
    · simp only [clean_youtube_url, h1, h3, h2, Bool.false_eq_true, if_false, if_true]
    · have h3f : pyIn "youtube.com/watch" url = false := by simpa using h3
      simp only [clean_youtube_url, h1, h3f, Bool.false_eq_true, if_false]

/-- Witness for C10 at a concrete non-YouTube URL. -/
theorem claim_C10_witness :
    pyIn "youtu.be/" "https://open.spotify.com/track/42" = false ∧
    clean_youtube_url "https://open.spotify.com/track/42" =
      "https://open.spotify.com/track/42" :=
  ⟨by decide,
   claim_C10 "https://open.spotify.com/track/42" (by decide) (Or.inl (by decide))⟩
